import Mathlib

/-!
Shallow embedding of `floppy_copy.py`, a small pipeline that copies picture
files from a floppy disk to a target directory under timestamp-derived names
and optionally wipes the source afterwards.

Modelling conventions:
* Paths are strings; `joinPath` models `pathlib`'s `/` operator.
* The filesystem and OS are an explicit environment `Env` of oracles:
  `statResult` is the outcome of `path.stat().st_mtime` (already broken down
  into civil time, abstracting `datetime.fromtimestamp`), `copyResult` the
  outcome of `shutil.copy2 src dst`, and `chownResult` the outcome of
  `os.chown path 1000 1000`.
* Python exceptions are `PyError` values carried in `Except`; `add_note`
  appends to the `notes` field.  Character case handling (`str.lower`) is
  modelled on ASCII letters, which covers every string the program compares.
* Directory listings (`iterdir`, `glob`, `listdir`) are passed in as lists of
  entry names; the scanner's informational log line is not modelled.
-/

namespace FloppyCopy

/-- ASCII lower-casing of one character (models `str.lower` on the characters
the program ever compares). -/
def asciiLowerChar (c : Char) : Char :=
  if 'A' ≤ c ∧ c ≤ 'Z' then Char.ofNat (c.toNat + 32) else c

/-- ASCII lower-casing of a string. -/
def asciiLower (s : String) : String :=
  ⟨s.data.map asciiLowerChar⟩

/-- Path join, modelling `pathlib`'s `dir / name`. -/
def joinPath (dir name : String) : String :=
  dir ++ "/" ++ name

/-- The characters after the last slash (used for the final path component). -/
def afterLastSlash (l : List Char) : List Char :=
  l.foldl (fun acc c => if c = '/' then [] else acc ++ [c]) []

/-- Final component of a path, modelling `pathlib.PurePath.name`. -/
def pathBaseName (p : String) : String :=
  ⟨afterLastSlash p.data⟩

/-- Index of the last dot in a character list, if any (models `str.rfind`). -/
def lastDotIdx : List Char → Option Nat
  | [] => none
  | c :: cs =>
    match lastDotIdx cs with
    | some i => some (i + 1)
    | none => if c = '.' then some 0 else none

/-- Extension of a path, modelling `pathlib.PurePath.suffix`: the part of the
final component from its last dot on, provided that dot is neither the first
nor the last character of the component; otherwise the empty string. -/
def pySuffix (p : String) : String :=
  let name := (pathBaseName p).data
  match lastDotIdx name with
  | none => ""
  | some i => if 0 < i ∧ i + 1 < name.length then ⟨name.drop i⟩ else ""

/-- The ASCII digit character for a value below ten. -/
def digitChar (d : Nat) : Char :=
  Char.ofNat (48 + d)

/-- Decimal digits of a natural number, most significant first, prepended to
`acc`.  The fuel argument only bounds the recursion depth; `n + 1` units are
always enough. -/
def toDecimal : Nat → Nat → List Char → List Char
  | 0, _, acc => acc
  | fuel + 1, n, acc =>
    if n < 10 then digitChar n :: acc
    else toDecimal fuel (n / 10) (digitChar (n % 10) :: acc)

/-- Decimal digit list of a natural number. -/
def decList (n : Nat) : List Char :=
  toDecimal (n + 1) n []

/-- Decimal representation of a natural number, modelling Python's `str(i)`
for a non-negative integer. -/
def natRepr (n : Nat) : String :=
  ⟨decList n⟩

/-- Value of a digit list (left fold), used to invert `decList`. -/
def digitsVal (l : List Char) : Nat :=
  l.foldl (fun a c => a * 10 + (c.toNat - 48)) 0

/-- A modification instant broken down into civil time, the form in which
`datetime.fromtimestamp` delivers `st_mtime` to `strftime`. -/
structure CivilTime where
  year : Nat
  month : Nat
  day : Nat
  hour : Nat
  minute : Nat
  second : Nat
  deriving DecidableEq, Repr

/-- A Python exception value: its class name, message, and the notes attached
with `add_note`. -/
structure PyError where
  kind : String
  msg : String
  notes : List String
  deriving DecidableEq, Repr

/-- Severity of a log line. -/
inductive LogLevel
  | info
  | warning
  | error
  deriving DecidableEq, Repr

/-- One emitted log line: severity, message, and the notes of the logged
exception when one was logged. -/
structure LogEntry where
  level : LogLevel
  msg : String
  notes : List String
  deriving DecidableEq, Repr

/-- The filesystem/OS oracles the run interacts with. -/
structure Env where
  statResult : String → Except PyError CivilTime
  copyResult : String → String → Except PyError Unit
  chownResult : String → Except PyError Unit

/-- Two-digit zero-padded decimal field, as produced by the strftime
conversions `%y %m %d %H %M %S` (each value is reduced modulo 100, which is
exact for `%y` and the identity for the in-range calendar fields). -/
def pad2 (n : Nat) : String :=
  (if n % 100 < 10 then "0" else "") ++ natRepr (n % 100)

/-- `strftime("%y%m%d_%H%M%S")` on a broken-down time. -/
def formatTimestamp (t : CivilTime) : String :=
  pad2 t.year ++ pad2 t.month ++ pad2 t.day ++ "_" ++
    pad2 t.hour ++ pad2 t.minute ++ pad2 t.second

/-- The note attached when the stat result lacks the timestamp attribute. -/
def metaNote (path : String) : String :=
  "Metadata of " ++ path ++ " does not include required timestamp"

/-- `extract_timestamp`: read the modification time and format it.  Only an
`AttributeError` is caught, annotated with `metaNote`, and re-raised; any
other exception from `stat` propagates unchanged. -/
def extract_timestamp (env : Env) (path : String) : Except PyError String :=
  match env.statResult path with
  | .ok t => .ok (formatTimestamp t)
  | .error e =>
    if e.kind = "AttributeError" then
      .error { e with notes := e.notes ++ [metaNote path] }
    else
      .error e

/-- Whether a directory entry matches the pattern `*.jpg` case-insensitively
(models `glob("*.jpg", case_sensitive=False)`). -/
def matchesJpg (name : String) : Bool :=
  ".jpg".data.isSuffixOf (asciiLower name).data

/-- `find_pictures`: the source-directory entries matching `*.jpg`, as full
paths. -/
def find_pictures (sourceDir : String) (entries : List String) : List String :=
  (entries.filter matchesJpg).map (joinPath sourceDir)

/-- The candidate target name tried at suffix index `i`: the bare
`timestamp + extension` for `i = 0`, and `timestamp_i + extension`
(an f-string in the source) for positive `i`. -/
def fmtName (ts : String) (i : Nat) (ext : String) : String :=
  if i = 0 then ts ++ ext else ts ++ "_" ++ natRepr i ++ ext

/-- The suffix-search `while` loop of `create_target_filenames`: starting at
index `i`, return the first candidate name not in `taken`.  The fuel bounds
the number of iterations; `taken.length + 1` is always enough (proved
below). -/
def searchName (taken : List String) (ts ext : String) : Nat → Nat → String
  | i, 0 => fmtName ts i ext
  | i, fuel + 1 =>
    if fmtName ts i ext ∈ taken then searchName taken ts ext (i + 1) fuel
    else fmtName ts i ext

/-- Python dict assignment `d[k] = v` on an insertion-ordered association
list: overwrite in place when the key is present, append otherwise. -/
def dictInsert (d : List (String × String)) (k v : String) :
    List (String × String) :=
  if d.any (fun kv => kv.fst = k) then
    d.map (fun kv => if kv.fst = k then (k, v) else kv)
  else
    d ++ [(k, v)]

/-- The `for` loop of `create_target_filenames`: `acc` is the `new_names`
dict built so far, `targetDirFiles` the pre-existing target entry names.  The
uniqueness check consults the current dict values first, then the target
directory listing, exactly as the source's `or` does. -/
def ctf_loop (env : Env) (targetDirFiles : List String)
    (acc : List (String × String)) :
    List String → Except PyError (List (String × String))
  | [] => .ok acc
  | p :: rest =>
    match extract_timestamp env p with
    | .error e => .error e
    | .ok ts =>
      let ext := pySuffix p
      let taken := acc.map Prod.snd ++ targetDirFiles
      let newName := searchName taken ts ext 0 (taken.length + 1)
      ctf_loop env targetDirFiles (dictInsert acc p newName) rest

/-- `create_target_filenames`: map each candidate path to a fresh target
filename.  `targetDirFiles` is the list of names from
`target_dir_path.iterdir()`. -/
def create_target_filenames (env : Env) (targetDirFiles : List String)
    (picturesPaths : List String) : Except PyError (List (String × String)) :=
  ctf_loop env targetDirFiles [] picturesPaths

/-- The copy `for` loop of `copy_files`: returns the success list (the
destination paths returned by `shutil.copy2`), the failure list (the source
paths), and the error log lines, in order. -/
def cf_loop (env : Env) (targetDir : String) :
    List (String × String) → List String × List String × List LogEntry
  | [] => ([], [], [])
  | (p, n) :: rest =>
    let r := cf_loop env targetDir rest
    match env.copyResult p (joinPath targetDir n) with
    | .ok _ => ((joinPath targetDir n) :: r.1, r.2.1, r.2.2)
    | .error e => (r.1, p :: r.2.1, ⟨.error, e.msg, e.notes⟩ :: r.2.2)

/-- The ownership `for` loop of `copy_files`.  The whole loop sits inside a
single `try`, so the first `os.chown` failure ends it: the result is the list
of `(path, uid, gid)` triples actually attempted, and the exception that
stopped the loop, if any. -/
def chown_loop (env : Env) : List String → List (String × Nat × Nat) × Option PyError
  | [] => ([], none)
  | p :: rest =>
    match env.chownResult p with
    | .ok _ =>
      let r := chown_loop env rest
      ((p, 1000, 1000) :: r.1, r.2)
    | .error e => ([(p, 1000, 1000)], some e)

/-- The note attached to a failed ownership adjustment. -/
def chownNote : String :=
  "Could not set ownership to the target files, continuing anyway."

/-- Everything `copy_files` produces: the two returned lists, the ownership
calls actually attempted, and the log. -/
structure CopyOut where
  successPaths : List String
  failPaths : List String
  chownAttempts : List (String × Nat × Nat)
  log : List LogEntry
  deriving DecidableEq, Repr

/-- `copy_files`: run the copy loop, emit the summary log lines, then make a
best-effort pass of `os.chown(path, 1000, 1000)` over the successes, logging
a single warning (with `chownNote` attached) if that pass raises. -/
def copy_files (env : Env) (targetDir : String)
    (targetFilenames : List (String × String)) : CopyOut :=
  let r := cf_loop env targetDir targetFilenames
  let succ := r.1
  let fail := r.2.1
  let sumLog :=
    [⟨.info, "Successfully copied " ++ natRepr succ.length ++ "/" ++
        natRepr targetFilenames.length ++ " files:", []⟩] ++
      succ.map (fun p => ⟨.info, p, []⟩)
  let failLog :=
    if fail = [] then [] else
      [⟨.error, "Failed to copy " ++ natRepr fail.length ++ "/" ++
          natRepr targetFilenames.length ++ " files:", []⟩] ++
        fail.map (fun p => ⟨.error, p, []⟩)
  let ch := chown_loop env succ
  let chLog := match ch.2 with
    | some e => [⟨.warning, e.msg, e.notes ++ [chownNote]⟩]
    | none => []
  ⟨succ, fail, ch.1, r.2.2 ++ sumLog ++ failLog ++ chLog⟩

/-- `wipe_disk`: list the contents, ask for confirmation, and delete every
entry only when the lower-cased reply is exactly yes; otherwise delete
nothing and log that nothing was removed.  Returns the deleted paths and the
log. -/
def wipe_disk (diskPath : String) (entries : List String) (confirmInput : String) :
    List String × List LogEntry :=
  let header : List LogEntry :=
    [⟨.warning, "Everything in " ++ diskPath ++ " will be removed.", []⟩,
     ⟨.warning, "Directory contents:", []⟩,
     ⟨.warning, String.intercalate "\n" entries, []⟩]
  if asciiLower confirmInput = "yes" then
    (entries.map (joinPath diskPath),
     header ++ entries.map (fun p => ⟨.info, joinPath diskPath p ++ " removed", []⟩))
  else
    ([], header ++ [⟨.info, "Nothing has been removed", []⟩])

/-- Everything one whole run produces. -/
structure RunResult where
  successPaths : List String
  failPaths : List String
  chownAttempts : List (String × Nat × Nat)
  deletions : List String
  log : List LogEntry
  deriving DecidableEq, Repr

/-- The `__main__` block: privilege check, scan, name, copy, and the guarded
wipe.  `sourceEntries` and `targetEntries` are the directory listings of the
source and target directories, `uid` is `os.getuid()`, and `confirmInput` the
reply to the wipe prompt. -/
def main_run (env : Env) (sourceDir targetDir : String)
    (sourceEntries targetEntries : List String)
    (wipeFlag : Bool) (uid : Nat) (confirmInput : String) :
    Except PyError RunResult :=
  if wipeFlag ∧ uid ≠ 0 then
    .error ⟨"PermissionError",
      "To wipe the floppy disk the script has to be run with root privileges. " ++
        "Try running again with `sudo`.", []⟩
  else
    let picturesPaths := find_pictures sourceDir sourceEntries
    match create_target_filenames env targetEntries picturesPaths with
    | .error e => .error e
    | .ok targetFilenames =>
      let c := copy_files env targetDir targetFilenames
      if wipeFlag then
        if c.failPaths ≠ [] then
          .ok ⟨c.successPaths, c.failPaths, c.chownAttempts, [],
            c.log ++ [⟨.warning, "Aborting wiping the disk - some files were not copied", []⟩]⟩
        else
          let w := wipe_disk sourceDir sourceEntries confirmInput
          .ok ⟨c.successPaths, c.failPaths, c.chownAttempts, w.1, c.log ++ w.2⟩
      else
        .ok ⟨c.successPaths, c.failPaths, c.chownAttempts, [], c.log⟩


/-! ### Concrete environments and values used to instantiate theorems -/

/-- All operations succeed; every file was last modified 2020-01-01 12:00:00. -/
def envA : Env :=
  { statResult := fun _ => .ok ⟨2020, 1, 1, 12, 0, 0⟩,
    copyResult := fun _ _ => .ok (),
    chownResult := fun _ => .ok () }

/-- Every copy fails with an OSError. -/
def envFail : Env :=
  { statResult := fun _ => .ok ⟨2020, 1, 1, 12, 0, 0⟩,
    copyResult := fun _ _ => .error ⟨"OSError", "copy failed", []⟩,
    chownResult := fun _ => .ok () }

/-- Only the copy of the second floppy file fails. -/
def envPartial : Env :=
  { statResult := fun _ => .ok ⟨2020, 1, 1, 12, 0, 0⟩,
    copyResult := fun src _ =>
      if src = "/floppy/b.jpg" then .error ⟨"OSError", "bad sector", []⟩ else .ok (),
    chownResult := fun _ => .ok () }

/-- Reading the modification time fails with an OSError (for example a
permission problem on `stat`), which the source catches nowhere. -/
def envOS : Env :=
  { statResult := fun _ => .error ⟨"OSError", "Permission denied", []⟩,
    copyResult := fun _ _ => .ok (),
    chownResult := fun _ => .ok () }

/-- The stat result lacks the timestamp attribute: the AttributeError case the
source annotates. -/
def envAttr : Env :=
  { statResult := fun _ => .error ⟨"AttributeError", "no attribute st_mtime", []⟩,
    copyResult := fun _ _ => .ok (),
    chownResult := fun _ => .ok () }

/-- All copies succeed but changing ownership of the first copied file fails. -/
def envCh : Env :=
  { statResult := fun _ => .ok ⟨2020, 1, 1, 12, 0, 0⟩,
    copyResult := fun _ _ => .ok (),
    chownResult := fun p =>
      if p = "/tgt/200101_120000.jpg" then
        .error ⟨"PermissionError", "Operation not permitted", []⟩
      else .ok () }

/-- The outcome of a run under `envFail` with one candidate and the wipe flag
set: the copy fails, so nothing is deleted. -/
def wrFail : RunResult :=
  ⟨[], ["/floppy/a.jpg"], [], [],
   [⟨.error, "copy failed", []⟩,
    ⟨.info, "Successfully copied 0/1 files:", []⟩,
    ⟨.error, "Failed to copy 1/1 files:", []⟩,
    ⟨.error, "/floppy/a.jpg", []⟩,
    ⟨.warning, "Aborting wiping the disk - some files were not copied", []⟩]⟩

/-! ### Helper lemmas: strings and decimal representation -/

theorem strData_append (s t : String) : (s ++ t).data = s.data ++ t.data := by
  cases s; cases t; rfl

theorem strMk_inj {a b : List Char} (h : (⟨a⟩ : String) = ⟨b⟩) : a = b := by
  cases h; rfl

theorem toDecimal_eq (n : Nat) : ∀ fuel acc, n < fuel →
    toDecimal fuel n acc = decList n ++ acc := by
  induction n using Nat.strong_induction_on with
  | _ n ih =>
    intro fuel acc hfuel
    match fuel, hfuel with
    | fuel + 1, hfuel =>
      by_cases h10 : n < 10
      · simp [toDecimal, decList, h10]
      · have hdiv : n / 10 < n := Nat.div_lt_self (by omega) (by omega)
        have h1 : toDecimal (fuel + 1) n acc
            = toDecimal fuel (n / 10) (digitChar (n % 10) :: acc) := by
          simp [toDecimal, h10]
        have h2 : decList n = decList (n / 10) ++ [digitChar (n % 10)] := by
          have h3 : decList n = toDecimal n (n / 10) (digitChar (n % 10) :: []) := by
            simp [decList, toDecimal, h10]
          rw [h3, ih (n / 10) hdiv n [digitChar (n % 10)] (by omega)]
        rw [h1, ih (n / 10) hdiv fuel (digitChar (n % 10) :: acc) (by omega), h2]
        simp

theorem decList_lt {n : Nat} (h : n < 10) : decList n = [digitChar n] := by
  simp [decList, toDecimal, h]

theorem decList_ge {n : Nat} (h : 10 ≤ n) :
    decList n = decList (n / 10) ++ [digitChar (n % 10)] := by
  have h1 : decList n = toDecimal n (n / 10) [digitChar (n % 10)] := by
    simp [decList, toDecimal, Nat.not_lt.mpr h]
  rw [h1, toDecimal_eq (n / 10) n [digitChar (n % 10)]
    (Nat.lt_of_lt_of_le (Nat.div_lt_self (by omega) (by omega)) (by omega))]

theorem digitChar_toNat {d : Nat} (h : d < 10) : (digitChar d).toNat = 48 + d := by
  interval_cases d <;> decide

theorem digitsVal_decList (n : Nat) : digitsVal (decList n) = n := by
  induction n using Nat.strong_induction_on with
  | _ n ih =>
    by_cases h10 : n < 10
    · rw [decList_lt h10]
      simp [digitsVal, digitChar_toNat h10]
    · have h := Nat.not_lt.mp h10
      rw [decList_ge h]
      have hdiv : n / 10 < n := Nat.div_lt_self (by omega) (by omega)
      have hv := ih (n / 10) hdiv
      simp only [digitsVal, List.foldl_append] at *
      simp only [List.foldl, hv, digitChar_toNat (Nat.mod_lt n (by omega))]
      omega

theorem decList_ne_nil (n : Nat) : decList n ≠ [] := by
  by_cases h10 : n < 10
  · rw [decList_lt h10]; simp
  · rw [decList_ge (Nat.not_lt.mp h10)]; simp

theorem natRepr_data (n : Nat) : (natRepr n).data = decList n := rfl

/-! ### Helper lemmas: candidate names and the suffix search -/

theorem fmtName_inj (ts ext : String) {i j : Nat}
    (h : fmtName ts i ext = fmtName ts j ext) : i = j := by
  by_cases hi : i = 0 <;> by_cases hj : j = 0
  · omega
  · exfalso
    simp only [fmtName, hi, hj, if_pos, if_neg, if_true, if_false] at h
    have hd := congrArg String.data h
    simp only [strData_append] at hd
    have hlen := congrArg List.length hd
    simp only [List.length_append] at hlen
    have h1 : (natRepr j).data.length ≠ 0 := by
      simp only [natRepr_data]
      exact fun he => decList_ne_nil j (List.eq_nil_of_length_eq_zero he)
    have h2 : ("_" : String).data.length = 1 := rfl
    omega
  · exfalso
    simp only [fmtName, hi, hj, if_neg, if_true, if_false] at h
    have hd := congrArg String.data h
    simp only [strData_append] at hd
    have hlen := congrArg List.length hd
    simp only [List.length_append] at hlen
    have h1 : (natRepr i).data.length ≠ 0 := by
      simp only [natRepr_data]
      exact fun he => decList_ne_nil i (List.eq_nil_of_length_eq_zero he)
    have h2 : ("_" : String).data.length = 1 := rfl
    omega
  · simp only [fmtName, hi, hj, if_neg] at h
    have hd := congrArg String.data h
    simp only [strData_append] at hd
    have h3 := List.append_cancel_right hd
    have h4 := List.append_cancel_left h3
    have h5 : decList i = decList j := h4
    have h6 := digitsVal_decList i
    rw [h5, digitsVal_decList j] at h6
    omega

theorem fmtName_exists_free (taken : List String) (ts ext : String) :
    ∃ j, j ≤ taken.length ∧ fmtName ts j ext ∉ taken := by
  by_contra hcon
  push_neg at hcon
  have hinj : Function.Injective (fun i => fmtName ts i ext) :=
    fun a b hab => fmtName_inj ts ext hab
  have hsub : (Finset.range (taken.length + 1)).image (fun i => fmtName ts i ext)
      ⊆ taken.toFinset := by
    intro x hx
    simp only [Finset.mem_image, Finset.mem_range] at hx
    obtain ⟨i, hi, rfl⟩ := hx
    exact List.mem_toFinset.mpr (hcon i (by omega))
  have hcard := Finset.card_le_card hsub
  rw [Finset.card_image_of_injective _ hinj, Finset.card_range] at hcard
  have hlen := taken.toFinset_card_le
  omega

theorem searchName_spec (taken : List String) (ts ext : String) :
    ∀ fuel i, (∃ j, i ≤ j ∧ j ≤ i + fuel ∧ fmtName ts j ext ∉ taken) →
    ∃ m, searchName taken ts ext i fuel = fmtName ts m ext ∧
      fmtName ts m ext ∉ taken ∧ i ≤ m ∧
      ∀ j, i ≤ j → j < m → fmtName ts j ext ∈ taken := by
  intro fuel
  induction fuel with
  | zero =>
    rintro i ⟨j, hij, hle, hfree⟩
    have hji : j = i := by omega
    subst hji
    exact ⟨j, rfl, hfree, Nat.le_refl j, fun k h1 h2 => by omega⟩
  | succ fuel ih =>
    rintro i ⟨j, hij, hle, hfree⟩
    by_cases hmem : fmtName ts i ext ∈ taken
    · have hne : j ≠ i := fun he => (he ▸ hfree) hmem
      obtain ⟨m, h1, h2, h3, h4⟩ := ih (i + 1) ⟨j, by omega, by omega, hfree⟩
      refine ⟨m, ?_, h2, by omega, ?_⟩
      · simpa [searchName, hmem] using h1
      · intro k hk1 hk2
        rcases Nat.eq_or_lt_of_le hk1 with hk | hk
        · exact hk ▸ hmem
        · exact h4 k hk hk2
    · exact ⟨i, by simp [searchName, hmem], hmem, Nat.le_refl i, fun k h1 h2 => by omega⟩

theorem searchName_least (taken : List String) (ts ext : String) :
    ∃ m, searchName taken ts ext 0 (taken.length + 1) = fmtName ts m ext ∧
      fmtName ts m ext ∉ taken ∧ ∀ j < m, fmtName ts j ext ∈ taken := by
  obtain ⟨j, hj, hfree⟩ := fmtName_exists_free taken ts ext
  obtain ⟨m, h1, h2, _, h4⟩ := searchName_spec taken ts ext (taken.length + 1) 0
    ⟨j, by omega, by omega, hfree⟩
  exact ⟨m, h1, h2, fun k hk => h4 k (by omega) hk⟩


/-! ### Helper lemmas: the namer loop -/

theorem extract_timestamp_ok {env : Env} {p ts : String}
    (h : extract_timestamp env p = .ok ts) :
    ∃ t, env.statResult p = .ok t ∧ ts = formatTimestamp t := by
  cases he : env.statResult p with
  | ok t =>
    simp only [extract_timestamp, he] at h
    exact ⟨t, rfl, (Except.ok.inj h).symm⟩
  | error e =>
    exfalso
    simp only [extract_timestamp, he] at h
    split at h <;> exact Except.noConfusion h

theorem dictInsert_fresh {d : List (String × String)} {k v : String}
    (h : k ∉ d.map Prod.fst) : dictInsert d k v = d ++ [(k, v)] := by
  unfold dictInsert
  rw [if_neg]
  intro hc
  rw [List.any_eq_true] at hc
  obtain ⟨kv, hkv, he⟩ := hc
  rw [decide_eq_true_eq] at he
  exact h (List.mem_map.mpr ⟨kv, hkv, he⟩)

theorem ctf_loop_spec (env : Env) (tgt : List String) :
    ∀ (ps : List String) (acc l : List (String × String)),
    ps.Nodup → (∀ p ∈ ps, p ∉ acc.map Prod.fst) →
    ctf_loop env tgt acc ps = .ok l →
    (∃ s, l = acc ++ s ∧ s.map Prod.fst = ps) ∧
    (∀ pre x post, l = pre ++ x :: post → acc.length ≤ pre.length →
      ∃ t i, env.statResult x.1 = .ok t ∧
        x.2 = fmtName (formatTimestamp t) i (pySuffix x.1) ∧
        fmtName (formatTimestamp t) i (pySuffix x.1) ∉ pre.map Prod.snd ++ tgt ∧
        ∀ j < i, fmtName (formatTimestamp t) j (pySuffix x.1) ∈ pre.map Prod.snd ++ tgt) := by
  intro ps
  induction ps with
  | nil =>
    intro acc l _ _ h
    have hacc : acc = l := Except.ok.inj h
    subst hacc
    refine ⟨⟨[], by simp, rfl⟩, ?_⟩
    intro pre x post hl hlen
    exfalso
    have hlcong := congrArg List.length hl
    simp only [List.length_append, List.length_cons] at hlcong
    omega
  | cons p rest ih =>
    intro acc l hnd hfresh h
    cases hext : extract_timestamp env p with
    | error e =>
      exfalso
      simp only [ctf_loop, hext] at h
      exact Except.noConfusion h
    | ok ts =>
      obtain ⟨t, hstat, hts⟩ := extract_timestamp_ok hext
      subst hts
      simp only [ctf_loop, hext] at h
      set nm := searchName (List.map Prod.snd acc ++ tgt) (formatTimestamp t)
        (pySuffix p) 0 ((List.map Prod.snd acc ++ tgt).length + 1) with hnm
      have hkfresh : p ∉ acc.map Prod.fst := hfresh p (List.mem_cons_self p rest)
      rw [dictInsert_fresh hkfresh] at h
      have hndr : rest.Nodup := hnd.of_cons
      have hpnotin : p ∉ rest := (List.nodup_cons.mp hnd).1
      have hfresh' : ∀ q ∈ rest, q ∉ (acc ++ [(p, nm)]).map Prod.fst := by
        intro q hq
        simp only [List.map_append, List.mem_append, List.map_cons, List.map_nil,
          List.mem_singleton, not_or]
        exact ⟨hfresh q (List.mem_cons_of_mem p hq), fun he => hpnotin (he ▸ hq)⟩
      obtain ⟨⟨s, hs1, hs2⟩, hpos⟩ := ih (acc ++ [(p, nm)]) l hndr hfresh' h
      constructor
      · refine ⟨(p, nm) :: s, ?_, ?_⟩
        · rw [hs1, List.append_assoc]
          rfl
        · simp [hs2]
      · intro pre x post hl hlen
        by_cases hc : acc.length + 1 ≤ pre.length
        · exact hpos pre x post hl (by
            simp only [List.length_append, List.length_cons, List.length_nil]
            omega)
        · have hpl : pre.length = acc.length := by omega
          have hb : pre ++ x :: post = acc ++ (p, nm) :: s := by
            rw [← hl, hs1, List.append_assoc]
            rfl
          obtain ⟨hpre, hxs⟩ := List.append_inj hb hpl
          have hx : x = (p, nm) := (List.cons.inj hxs).1
          obtain ⟨m, hm1, hm2, hm3⟩ := searchName_least (List.map Prod.snd acc ++ tgt)
            (formatTimestamp t) (pySuffix p)
          rw [← hnm] at hm1
          subst hpre
          subst hx
          exact ⟨t, m, hstat, hm1.symm ▸ rfl, hm1 ▸ hm2, fun j hj => hm3 j hj⟩

theorem ctf_loop_total (env : Env) (tgt : List String) :
    ∀ (ps : List String) (acc : List (String × String)),
    (∀ p ∈ ps, ∃ t, env.statResult p = .ok t) →
    ∃ l, ctf_loop env tgt acc ps = .ok l := by
  intro ps
  induction ps with
  | nil => exact fun acc _ => ⟨acc, rfl⟩
  | cons p rest ih =>
    intro acc hstat
    obtain ⟨t, ht⟩ := hstat p (List.mem_cons_self p rest)
    have hex : extract_timestamp env p = .ok (formatTimestamp t) := by
      unfold extract_timestamp
      rw [ht]
    obtain ⟨l, hl⟩ := ih (dictInsert acc p
        (searchName (acc.map Prod.snd ++ tgt) (formatTimestamp t) (pySuffix p) 0
          ((acc.map Prod.snd ++ tgt).length + 1)))
      (fun q hq => hstat q (List.mem_cons_of_mem p hq))
    refine ⟨l, ?_⟩
    simp only [ctf_loop, hex]
    exact hl


theorem ctf_loop_uniform (env : Env) (tgt : List String) (t : CivilTime) (ext : String)
    (hfreeTgt : ∀ i, fmtName (formatTimestamp t) i ext ∉ tgt) :
    ∀ (ps : List String) (acc : List (String × String)) (m : Nat),
    ps.Nodup → (∀ p ∈ ps, p ∉ acc.map Prod.fst) →
    (∀ p ∈ ps, env.statResult p = .ok t) →
    (∀ p ∈ ps, pySuffix p = ext) →
    acc.map Prod.snd = (List.range m).map (fun k => fmtName (formatTimestamp t) k ext) →
    ∃ l, ctf_loop env tgt acc ps = .ok l ∧
      l.map Prod.fst = acc.map Prod.fst ++ ps ∧
      l.map Prod.snd = (List.range (m + ps.length)).map
        (fun k => fmtName (formatTimestamp t) k ext) := by
  intro ps
  induction ps with
  | nil =>
    intro acc m _ _ _ _ hvals
    exact ⟨acc, rfl, by simp, by simpa using hvals⟩
  | cons p rest ih =>
    intro acc m hnd hfresh hstat hsuf hvals
    have hstatp := hstat p (List.mem_cons_self p rest)
    have hex : extract_timestamp env p = .ok (formatTimestamp t) := by
      simp only [extract_timestamp, hstatp]
    have hsufp := hsuf p (List.mem_cons_self p rest)
    have hmemIff : ∀ j, fmtName (formatTimestamp t) j ext ∈ acc.map Prod.snd ++ tgt ↔ j < m := by
      intro j
      rw [hvals]
      constructor
      · intro hj
        rcases List.mem_append.mp hj with hj | hj
        · obtain ⟨k, hk, he⟩ := List.mem_map.mp hj
          have hkj : k = j := fmtName_inj (formatTimestamp t) ext he
          exact hkj ▸ List.mem_range.mp hk
        · exact absurd hj (hfreeTgt j)
      · intro hj
        exact List.mem_append.mpr (Or.inl (List.mem_map.mpr
          ⟨j, List.mem_range.mpr hj, rfl⟩))
    have hsm : searchName (acc.map Prod.snd ++ tgt) (formatTimestamp t) ext 0
        ((acc.map Prod.snd ++ tgt).length + 1) = fmtName (formatTimestamp t) m ext := by
      obtain ⟨m2, h1, h2, h3⟩ := searchName_least (acc.map Prod.snd ++ tgt)
        (formatTimestamp t) ext
      have hm2 : m2 = m := by
        by_contra hne
        rcases Nat.lt_or_ge m2 m with hlt | hge
        · exact h2 ((hmemIff m2).mpr hlt)
        · have hmm : m < m2 := by omega
          have := (hmemIff m).mp (h3 m hmm)
          omega
      rw [hm2] at h1
      exact h1
    have hkfresh : p ∉ acc.map Prod.fst := hfresh p (List.mem_cons_self p rest)
    have hpnotin : p ∉ rest := (List.nodup_cons.mp hnd).1
    have hfresh2 : ∀ q ∈ rest,
        q ∉ (acc ++ [(p, fmtName (formatTimestamp t) m ext)]).map Prod.fst := by
      intro q hq
      simp only [List.map_append, List.mem_append, List.map_cons, List.map_nil,
        List.mem_singleton, not_or]
      exact ⟨hfresh q (List.mem_cons_of_mem p hq), fun he => hpnotin (he ▸ hq)⟩
    have hvals2 : (acc ++ [(p, fmtName (formatTimestamp t) m ext)]).map Prod.snd
        = (List.range (m + 1)).map (fun k => fmtName (formatTimestamp t) k ext) := by
      rw [List.map_append, hvals, List.range_succ, List.map_append]
      rfl
    obtain ⟨l, hl1, hl2, hl3⟩ := ih (acc ++ [(p, fmtName (formatTimestamp t) m ext)])
      (m + 1) hnd.of_cons hfresh2
      (fun q hq => hstat q (List.mem_cons_of_mem p hq))
      (fun q hq => hsuf q (List.mem_cons_of_mem p hq)) hvals2
    refine ⟨l, ?_, ?_, ?_⟩
    · simp only [ctf_loop, hex, hsufp, hsm]
      rw [dictInsert_fresh hkfresh]
      exact hl1
    · rw [hl2]
      simp [List.map_append]
    · rw [hl3]
      have harith : m + 1 + rest.length = m + (rest.length + 1) := by omega
      rw [harith]
      rfl


/-! ### Helper lemmas: the copy pass and the ownership pass -/

theorem cf_loop_append (env : Env) (tgt : String) (a b : List (String × String)) :
    cf_loop env tgt (a ++ b) =
      ((cf_loop env tgt a).1 ++ (cf_loop env tgt b).1,
       (cf_loop env tgt a).2.1 ++ (cf_loop env tgt b).2.1,
       (cf_loop env tgt a).2.2 ++ (cf_loop env tgt b).2.2) := by
  induction a with
  | nil => simp [cf_loop]
  | cons pr rest ih =>
    obtain ⟨p, n⟩ := pr
    cases hc : env.copyResult p (joinPath tgt n) with
    | ok u => simp [cf_loop, hc, ih]
    | error e => simp [cf_loop, hc, ih]

theorem cf_loop_fail_eq (env : Env) (tgt : String) :
    ∀ tf, (cf_loop env tgt tf).2.1 = tf.filterMap (fun pr =>
      match env.copyResult pr.1 (joinPath tgt pr.2) with
      | .ok _ => none
      | .error _ => some pr.1) := by
  intro tf
  induction tf with
  | nil => rfl
  | cons pr rest ih =>
    obtain ⟨p, n⟩ := pr
    cases hc : env.copyResult p (joinPath tgt n) with
    | ok u => simp [cf_loop, List.filterMap_cons, hc, ih]
    | error e => simp [cf_loop, List.filterMap_cons, hc, ih]

theorem cf_loop_succ_eq (env : Env) (tgt : String) :
    ∀ tf, (cf_loop env tgt tf).1 = tf.filterMap (fun pr =>
      match env.copyResult pr.1 (joinPath tgt pr.2) with
      | .ok _ => some (joinPath tgt pr.2)
      | .error _ => none) := by
  intro tf
  induction tf with
  | nil => rfl
  | cons pr rest ih =>
    obtain ⟨p, n⟩ := pr
    cases hc : env.copyResult p (joinPath tgt n) with
    | ok u => simp [cf_loop, List.filterMap_cons, hc, ih]
    | error e => simp [cf_loop, List.filterMap_cons, hc, ih]

theorem cf_loop_length (env : Env) (tgt : String) :
    ∀ tf, (cf_loop env tgt tf).1.length + (cf_loop env tgt tf).2.1.length = tf.length := by
  intro tf
  induction tf with
  | nil => rfl
  | cons pr rest ih =>
    obtain ⟨p, n⟩ := pr
    cases hc : env.copyResult p (joinPath tgt n) with
    | ok u =>
      simp only [cf_loop, hc, List.length_cons]
      omega
    | error e =>
      simp only [cf_loop, hc, List.length_cons]
      omega

theorem cf_loop_chown_irrelevant (env1 env2 : Env)
    (hc : env1.copyResult = env2.copyResult) (tgt : String) :
    ∀ tf, cf_loop env1 tgt tf = cf_loop env2 tgt tf := by
  intro tf
  induction tf with
  | nil => rfl
  | cons pr rest ih =>
    obtain ⟨p, n⟩ := pr
    simp only [cf_loop, ih, hc]

theorem chown_loop_all_ok (env : Env) :
    ∀ s, (∀ p ∈ s, env.chownResult p = .ok ()) →
    chown_loop env s = (s.map (fun p => (p, 1000, 1000)), none) := by
  intro s
  induction s with
  | nil => intro; rfl
  | cons p rest ih =>
    intro h
    have hp := h p (List.mem_cons_self p rest)
    simp [chown_loop, hp, ih (fun q hq => h q (List.mem_cons_of_mem p hq))]

theorem chown_loop_first_err (env : Env) (e : PyError) :
    ∀ pre q post, (∀ p ∈ pre, env.chownResult p = .ok ()) →
    env.chownResult q = .error e →
    chown_loop env (pre ++ q :: post) =
      ((pre ++ [q]).map (fun p => (p, 1000, 1000)), some e) := by
  intro pre
  induction pre with
  | nil =>
    intro q post _ hq
    simp [chown_loop, hq]
  | cons p rest ih =>
    intro q post h hq
    have hp := h p (List.mem_cons_self p rest)
    simp [chown_loop, hp, ih q post (fun r hr => h r (List.mem_cons_of_mem p hr)) hq]


/-! ### Claim theorems -/

/-- C1: for every run, the wipe step is never invoked (no deletion of any
source-directory entry occurs) when the failure list returned by the copy
phase is non-empty, regardless of whether the wipe flag was set. -/
theorem wipe_skipped_on_copy_failure (env : Env) (sourceDir targetDir : String)
    (sourceEntries targetEntries : List String) (wipeFlag : Bool) (uid : Nat)
    (confirmInput : String) (r : RunResult)
    (h : main_run env sourceDir targetDir sourceEntries targetEntries wipeFlag uid
      confirmInput = .ok r)
    (hf : r.failPaths ≠ []) : r.deletions = [] := by
  simp only [main_run] at h
  split at h
  · exact Except.noConfusion h
  · split at h
    · exact Except.noConfusion h
    · split at h
      · split at h
        · rw [← Except.ok.inj h]
        · next hguard =>
          exfalso
          rw [← Except.ok.inj h] at hf
          exact hguard hf
      · rw [← Except.ok.inj h]

/-- C1 witness: a concrete wipe-flagged run whose single copy fails deletes
nothing. -/
theorem wipe_skipped_on_copy_failure_inst :
    main_run envFail "/floppy" "/tgt" ["a.jpg"] [] true 0 "yes" = .ok wrFail ∧
    wrFail.failPaths ≠ [] ∧ wrFail.deletions = [] :=
  ⟨rfl, by decide,
   wipe_skipped_on_copy_failure envFail "/floppy" "/tgt" ["a.jpg"] [] true 0 "yes"
     wrFail rfl (by decide)⟩

/-- C2: the Namer assigns each candidate the name tried at the least suffix
index that is free in the union of the names assigned earlier in the run and
the pre-existing target-directory entries: the bare timestamp-plus-extension
when that union does not contain it (index 0), and otherwise
`timestamp_i + extension` for the smallest positive `i` free in that union. -/
theorem namer_assigns_least_free_suffix (env : Env) (tgtFiles ps : List String)
    (hnd : ps.Nodup) (l : List (String × String))
    (h : create_target_filenames env tgtFiles ps = .ok l) :
    l.map Prod.fst = ps ∧
    ∀ pre x post, l = pre ++ x :: post →
      ∃ t i, env.statResult x.1 = .ok t ∧
        x.2 = fmtName (formatTimestamp t) i (pySuffix x.1) ∧
        fmtName (formatTimestamp t) i (pySuffix x.1) ∉ pre.map Prod.snd ++ tgtFiles ∧
        ∀ j < i, fmtName (formatTimestamp t) j (pySuffix x.1) ∈ pre.map Prod.snd ++ tgtFiles := by
  obtain ⟨⟨s, hs1, hs2⟩, hpos⟩ := ctf_loop_spec env tgtFiles ps [] l hnd (by simp) h
  constructor
  · rw [hs1]
    simpa using hs2
  · intro pre x post hl
    exact hpos pre x post hl (by simp)

/-- C2 witness: with `200101_120000.jpg` already present in the target
directory, a candidate with that timestamp and extension is assigned
`200101_120000_1.jpg`. -/
theorem namer_assigns_least_free_suffix_inst :
    List.Nodup ["/floppy/a.jpg"] ∧
    create_target_filenames envA ["200101_120000.jpg"] ["/floppy/a.jpg"] =
      .ok [("/floppy/a.jpg", "200101_120000_1.jpg")] ∧
    List.map Prod.fst [("/floppy/a.jpg", "200101_120000_1.jpg")] = ["/floppy/a.jpg"] :=
  ⟨by decide, rfl,
   (namer_assigns_least_free_suffix envA ["200101_120000.jpg"] ["/floppy/a.jpg"]
     (by decide) [("/floppy/a.jpg", "200101_120000_1.jpg")] rfl).1⟩

/-- C3: for candidates sharing one modification second and one extension,
with no pre-existing target-directory collisions, the Namer assigns the base
name to the first candidate and strictly increasing suffixes in candidate
order, and the assigned names are pairwise distinct. -/
theorem namer_same_second_increasing_suffixes (env : Env) (t : CivilTime)
    (ext : String) (tgtFiles ps : List String) (hnd : ps.Nodup)
    (hstat : ∀ p ∈ ps, env.statResult p = .ok t)
    (hsuf : ∀ p ∈ ps, pySuffix p = ext)
    (hfree : ∀ i, fmtName (formatTimestamp t) i ext ∉ tgtFiles) :
    ∃ l, create_target_filenames env tgtFiles ps = .ok l ∧
      l.map Prod.fst = ps ∧
      l.map Prod.snd = (List.range ps.length).map
        (fun k => fmtName (formatTimestamp t) k ext) ∧
      (l.map Prod.snd).Nodup := by
  obtain ⟨l, h1, h2, h3⟩ := ctf_loop_uniform env tgtFiles t ext hfree ps [] 0 hnd
    (by simp) hstat hsuf (by simp)
  rw [Nat.zero_add] at h3
  have hinj : Function.Injective (fun k => fmtName (formatTimestamp t) k ext) :=
    fun a b hab => fmtName_inj (formatTimestamp t) ext hab
  refine ⟨l, h1, by simpa using h2, h3, ?_⟩
  rw [h3]
  exact (List.nodup_range ps.length).map hinj

/-- C3 witness: three same-second candidates get the base name and suffixes
one and two, in order, all distinct. -/
theorem namer_same_second_increasing_suffixes_inst :
    ∃ l, create_target_filenames envA []
        ["/floppy/a.jpg", "/floppy/b.jpg", "/floppy/c.jpg"] = .ok l ∧
      l.map Prod.fst = ["/floppy/a.jpg", "/floppy/b.jpg", "/floppy/c.jpg"] ∧
      l.map Prod.snd = (List.range 3).map
        (fun k => fmtName (formatTimestamp ⟨2020, 1, 1, 12, 0, 0⟩) k ".jpg") ∧
      (l.map Prod.snd).Nodup :=
  namer_same_second_increasing_suffixes envA ⟨2020, 1, 1, 12, 0, 0⟩ ".jpg" []
    ["/floppy/a.jpg", "/floppy/b.jpg", "/floppy/c.jpg"] (by decide)
    (fun _ _ => rfl) (by decide) (fun i => List.not_mem_nil _)

/-- C4 counterexample: the success list returned by the copy phase holds the
destination path returned by the copy operation, not the candidate, so the
two lists do not cover the input candidate even though their lengths sum to
the candidate count. -/
theorem copy_lists_not_candidate_cover_cx :
    (copy_files envA "/tgt" [("/floppy/a.jpg", "200101_120000.jpg")]).successPaths.length +
      (copy_files envA "/tgt" [("/floppy/a.jpg", "200101_120000.jpg")]).failPaths.length = 1 ∧
    "/floppy/a.jpg" ∉
      (copy_files envA "/tgt" [("/floppy/a.jpg", "200101_120000.jpg")]).successPaths ++
        (copy_files envA "/tgt" [("/floppy/a.jpg", "200101_120000.jpg")]).failPaths := by
  decide

/-- C4 (amended): each input pair lands in exactly one outcome: the failure
list holds the source candidates of failed copies, the success list the
destination paths of successful copies, both in input order, and the lengths
of the two lists sum to the number of input pairs. -/
theorem copy_outcomes_partition (env : Env) (tgt : String)
    (tf : List (String × String)) :
    (copy_files env tgt tf).successPaths.length +
      (copy_files env tgt tf).failPaths.length = tf.length ∧
    (copy_files env tgt tf).failPaths = tf.filterMap (fun pr =>
      match env.copyResult pr.1 (joinPath tgt pr.2) with
      | .ok _ => none
      | .error _ => some pr.1) ∧
    (copy_files env tgt tf).successPaths = tf.filterMap (fun pr =>
      match env.copyResult pr.1 (joinPath tgt pr.2) with
      | .ok _ => some (joinPath tgt pr.2)
      | .error _ => none) :=
  ⟨cf_loop_length env tgt tf, cf_loop_fail_eq env tgt tf, cf_loop_succ_eq env tgt tf⟩

/-- C5: a copy error for a pair is recorded by adding the candidate to the
failure list and logging it, and the pass continues: the pairs before and
after the failing one produce exactly the outcomes they would produce on
their own. -/
theorem copy_error_recorded_and_batch_continues (env : Env) (tgt : String)
    (pre post : List (String × String)) (p n : String) (e : PyError)
    (h : env.copyResult p (joinPath tgt n) = .error e) :
    p ∈ (copy_files env tgt (pre ++ (p, n) :: post)).failPaths ∧
    (⟨.error, e.msg, e.notes⟩ : LogEntry) ∈
      (copy_files env tgt (pre ++ (p, n) :: post)).log ∧
    (copy_files env tgt (pre ++ (p, n) :: post)).failPaths =
      (copy_files env tgt pre).failPaths ++ p :: (copy_files env tgt post).failPaths ∧
    (copy_files env tgt (pre ++ (p, n) :: post)).successPaths =
      (copy_files env tgt pre).successPaths ++ (copy_files env tgt post).successPaths := by
  have hstep : cf_loop env tgt ((p, n) :: post) =
      ((cf_loop env tgt post).1, p :: (cf_loop env tgt post).2.1,
        (⟨.error, e.msg, e.notes⟩ : LogEntry) :: (cf_loop env tgt post).2.2) := by
    simp [cf_loop, h]
  have happ := cf_loop_append env tgt pre ((p, n) :: post)
  have hfail : (cf_loop env tgt (pre ++ (p, n) :: post)).2.1 =
      (cf_loop env tgt pre).2.1 ++ p :: (cf_loop env tgt post).2.1 := by
    rw [happ, hstep]
  have hsucc : (cf_loop env tgt (pre ++ (p, n) :: post)).1 =
      (cf_loop env tgt pre).1 ++ (cf_loop env tgt post).1 := by
    rw [happ, hstep]
  have hlog : (cf_loop env tgt (pre ++ (p, n) :: post)).2.2 =
      (cf_loop env tgt pre).2.2 ++ (⟨.error, e.msg, e.notes⟩ : LogEntry) ::
        (cf_loop env tgt post).2.2 := by
    rw [happ, hstep]
  refine ⟨?_, ?_, hfail, hsucc⟩
  · show p ∈ (cf_loop env tgt (pre ++ (p, n) :: post)).2.1
    rw [hfail]
    simp
  · have hmem : (⟨.error, e.msg, e.notes⟩ : LogEntry) ∈
        (cf_loop env tgt (pre ++ (p, n) :: post)).2.2 := by
      rw [hlog]
      simp
    simp only [copy_files, List.mem_append]
    exact Or.inl (Or.inl (Or.inl hmem))

/-- C5 witness: with the second of two pairs failing, the candidate is in the
failure list and the error is logged. -/
theorem copy_error_recorded_and_batch_continues_inst :
    "/floppy/b.jpg" ∈ (copy_files envPartial "/tgt"
      [("/floppy/a.jpg", "200101_120000.jpg"),
       ("/floppy/b.jpg", "200101_120000_1.jpg")]).failPaths ∧
    (⟨.error, "bad sector", []⟩ : LogEntry) ∈ (copy_files envPartial "/tgt"
      [("/floppy/a.jpg", "200101_120000.jpg"),
       ("/floppy/b.jpg", "200101_120000_1.jpg")]).log :=
  have hc := copy_error_recorded_and_batch_continues envPartial "/tgt"
    [("/floppy/a.jpg", "200101_120000.jpg")] [] "/floppy/b.jpg"
    "200101_120000_1.jpg" ⟨"OSError", "bad sector", []⟩ rfl
  ⟨hc.1, hc.2.1⟩

/-- C6 counterexample: when reading the modification time fails with an
OSError, `extract_timestamp` re-raises the error without the explanatory
note, so not every unreadable timestamp aborts with a diagnostic note. -/
theorem timestamp_error_note_missing_cx :
    extract_timestamp envOS "/floppy/a.jpg" =
      .error ⟨"OSError", "Permission denied", []⟩ ∧
    metaNote "/floppy/a.jpg" ∉ (⟨"OSError", "Permission denied", []⟩ : PyError).notes :=
  ⟨rfl, by decide⟩

/-- C6 (amended): an unreadable modification time always aborts the candidate
by re-raising the error and never yields a timestamp; the explanatory note is
attached exactly when the failure is an AttributeError (missing timestamp
attribute), and any other error propagates unchanged. -/
theorem extract_timestamp_aborts_on_stat_error (env : Env) (path : String)
    (e : PyError) (h : env.statResult path = .error e) :
    extract_timestamp env path =
      .error (if e.kind = "AttributeError" then
        { e with notes := e.notes ++ [metaNote path] } else e) := by
  simp only [extract_timestamp, h]
  by_cases hk : e.kind = "AttributeError" <;> simp [hk]

/-- C6 witness: an AttributeError from stat is re-raised carrying the
explanatory note. -/
theorem extract_timestamp_aborts_on_stat_error_inst :
    extract_timestamp envAttr "/floppy/a.jpg" =
      .error ⟨"AttributeError", "no attribute st_mtime", [metaNote "/floppy/a.jpg"]⟩ :=
  extract_timestamp_aborts_on_stat_error envAttr "/floppy/a.jpg"
    ⟨"AttributeError", "no attribute st_mtime", []⟩ rfl

/-- C7: the wipe step deletes only when the lower-cased confirmation input is
exactly yes; on any other input it deletes nothing and logs that nothing was
removed. -/
theorem wipe_confirmation_guard (dsk : String) (entries : List String)
    (input : String) :
    (asciiLower input ≠ "yes" →
      (wipe_disk dsk entries input).1 = [] ∧
      (⟨.info, "Nothing has been removed", []⟩ : LogEntry) ∈
        (wipe_disk dsk entries input).2) ∧
    ((wipe_disk dsk entries input).1 ≠ [] → asciiLower input = "yes") := by
  by_cases hy : asciiLower input = "yes"
  · exact ⟨fun hne => absurd hy hne, fun _ => hy⟩
  · constructor
    · intro _
      constructor
      · simp [wipe_disk, hy]
      · simp [wipe_disk, hy]
    · intro hne
      exfalso
      exact hne (by simp [wipe_disk, hy])

/-- C7 witness: declining with the input No removes nothing and logs it. -/
theorem wipe_confirmation_guard_inst :
    (wipe_disk "/floppy" ["a.jpg", "sub"] "No").1 = [] ∧
    (⟨.info, "Nothing has been removed", []⟩ : LogEntry) ∈
      (wipe_disk "/floppy" ["a.jpg", "sub"] "No").2 :=
  (wipe_confirmation_guard "/floppy" ["a.jpg", "sub"] "No").1 (by decide)

/-- C8 counterexample: with two successfully copied files and the first chown
failing, the second file never has its ownership adjustment attempted, so the
ownership pass is not attempted for each successfully copied file. -/
theorem chown_not_attempted_for_all_cx :
    (copy_files envCh "/tgt" [("/floppy/a.jpg", "200101_120000.jpg"),
      ("/floppy/b.jpg", "200101_120000_1.jpg")]).successPaths =
        ["/tgt/200101_120000.jpg", "/tgt/200101_120000_1.jpg"] ∧
    (copy_files envCh "/tgt" [("/floppy/a.jpg", "200101_120000.jpg"),
      ("/floppy/b.jpg", "200101_120000_1.jpg")]).chownAttempts =
        [("/tgt/200101_120000.jpg", 1000, 1000)] ∧
    ("/tgt/200101_120000_1.jpg", 1000, 1000) ∉
      (copy_files envCh "/tgt" [("/floppy/a.jpg", "200101_120000.jpg"),
        ("/floppy/b.jpg", "200101_120000_1.jpg")]).chownAttempts ∧
    (copy_files envCh "/tgt" [("/floppy/a.jpg", "200101_120000.jpg"),
      ("/floppy/b.jpg", "200101_120000_1.jpg")]).failPaths = [] := by
  decide

/-- C8 (amended): the returned success and failure lists never depend on the
ownership oracle; when every chown succeeds the ownership of each successfully
copied file is set, and otherwise chown is attempted in order up to and
including the first failing file, whose error is logged as a warning carrying
the continuing-anyway note. -/
theorem chown_best_effort_until_first_failure :
    (∀ env1 env2 : Env, ∀ (tgt : String) (tf : List (String × String)),
      env1.copyResult = env2.copyResult →
      (copy_files env1 tgt tf).successPaths = (copy_files env2 tgt tf).successPaths ∧
      (copy_files env1 tgt tf).failPaths = (copy_files env2 tgt tf).failPaths) ∧
    (∀ (env : Env) (tgt : String) (tf : List (String × String)),
      (∀ p ∈ (copy_files env tgt tf).successPaths, env.chownResult p = .ok ()) →
      (copy_files env tgt tf).chownAttempts =
        (copy_files env tgt tf).successPaths.map (fun p => (p, 1000, 1000))) ∧
    (∀ (env : Env) (tgt : String) (tf : List (String × String))
      (pre : List String) (q : String) (post : List String) (e : PyError),
      (copy_files env tgt tf).successPaths = pre ++ q :: post →
      (∀ p ∈ pre, env.chownResult p = .ok ()) →
      env.chownResult q = .error e →
      (copy_files env tgt tf).chownAttempts =
        (pre ++ [q]).map (fun p => (p, 1000, 1000)) ∧
      (⟨.warning, e.msg, e.notes ++ [chownNote]⟩ : LogEntry) ∈
        (copy_files env tgt tf).log) := by
  refine ⟨?_, ?_, ?_⟩
  · intro env1 env2 tgt tf hc
    have heq := cf_loop_chown_irrelevant env1 env2 hc tgt tf
    constructor
    · show (cf_loop env1 tgt tf).1 = (cf_loop env2 tgt tf).1
      rw [heq]
    · show (cf_loop env1 tgt tf).2.1 = (cf_loop env2 tgt tf).2.1
      rw [heq]
  · intro env tgt tf hok
    have hok2 : ∀ p ∈ (cf_loop env tgt tf).1, env.chownResult p = .ok () := hok
    show (chown_loop env (cf_loop env tgt tf).1).1 =
      ((cf_loop env tgt tf).1).map (fun p => (p, 1000, 1000))
    rw [chown_loop_all_ok env _ hok2]
  · intro env tgt tf pre q post e hsucc hpre herr
    have hch : chown_loop env (cf_loop env tgt tf).1 =
        ((pre ++ [q]).map (fun p => (p, 1000, 1000)), some e) := by
      have hr : (cf_loop env tgt tf).1 = pre ++ q :: post := hsucc
      rw [hr]
      exact chown_loop_first_err env e pre q post hpre herr
    constructor
    · show (chown_loop env (cf_loop env tgt tf).1).1 = _
      rw [hch]
    · simp only [copy_files, List.mem_append]
      right
      rw [hch]
      simp

/-- C8 witness: a first-chown failure stops the ownership pass after one
attempt and leaves a warning carrying the note. -/
theorem chown_best_effort_until_first_failure_inst :
    (copy_files envCh "/tgt" [("/floppy/a.jpg", "200101_120000.jpg"),
        ("/floppy/b.jpg", "200101_120000_1.jpg")]).chownAttempts =
      ([] ++ ["/tgt/200101_120000.jpg"]).map (fun p => (p, 1000, 1000)) ∧
    (⟨.warning, "Operation not permitted", [chownNote]⟩ : LogEntry) ∈
      (copy_files envCh "/tgt" [("/floppy/a.jpg", "200101_120000.jpg"),
        ("/floppy/b.jpg", "200101_120000_1.jpg")]).log :=
  chown_best_effort_until_first_failure.2.2 envCh "/tgt"
    [("/floppy/a.jpg", "200101_120000.jpg"),
     ("/floppy/b.jpg", "200101_120000_1.jpg")]
    [] "/tgt/200101_120000.jpg" ["/tgt/200101_120000_1.jpg"]
    ⟨"PermissionError", "Operation not permitted", []⟩ rfl
    (fun p hp => absurd hp (List.not_mem_nil p)) rfl

/-- C9: the suffix search always terminates within the fuel the loop is run
with, yielding a name outside the finite taken set, and the Namer is total:
with readable modification times it returns an assignment. -/
theorem namer_suffix_search_terminates :
    (∀ (taken : List String) (ts ext : String),
      searchName taken ts ext 0 (taken.length + 1) ∉ taken) ∧
    (∀ (env : Env) (tgtFiles ps : List String),
      (∀ p ∈ ps, ∃ t, env.statResult p = .ok t) →
      ∃ l, create_target_filenames env tgtFiles ps = .ok l) := by
  constructor
  · intro taken ts ext
    obtain ⟨m, h1, h2, _⟩ := searchName_least taken ts ext
    rw [h1]
    exact h2
  · intro env tgtFiles ps hstat
    exact ctf_loop_total env tgtFiles ps [] hstat

/-- C9 witness: the search leaves a one-element taken set, and the Namer
returns an assignment on a concrete input. -/
theorem namer_suffix_search_terminates_inst :
    searchName ["200101_120000.jpg"] "200101_120000" ".jpg" 0 2 ∉
      ["200101_120000.jpg"] ∧
    ∃ l, create_target_filenames envA [] ["/floppy/a.jpg"] = .ok l :=
  ⟨namer_suffix_search_terminates.1 ["200101_120000.jpg"] "200101_120000" ".jpg",
   namer_suffix_search_terminates.2 envA [] ["/floppy/a.jpg"]
     (fun _ _ => ⟨⟨2020, 1, 1, 12, 0, 0⟩, rfl⟩)⟩

/-- C10: the Scanner matches the jpg extension case-insensitively, and the
Namer appends each candidate extension verbatim: every assigned name is a
stem followed by the candidate suffix with its original character case. -/
theorem extension_preserved_verbatim (env : Env) (tgtFiles ps : List String)
    (hnd : ps.Nodup) (l : List (String × String))
    (h : create_target_filenames env tgtFiles ps = .ok l) :
    matchesJpg "FOO.JPG" = true ∧
    ∀ x ∈ l, ∃ stem, x.2 = stem ++ pySuffix x.1 := by
  refine ⟨by decide, ?_⟩
  intro x hx
  obtain ⟨pre, post, hl⟩ := List.append_of_mem hx
  obtain ⟨⟨s, _, _⟩, hpos⟩ := ctf_loop_spec env tgtFiles ps [] l hnd (by simp) h
  obtain ⟨t, i, _, hx2, _, _⟩ := hpos pre x post hl (by simp)
  by_cases hi : i = 0
  · subst hi
    exact ⟨formatTimestamp t, by simpa [fmtName] using hx2⟩
  · exact ⟨formatTimestamp t ++ "_" ++ natRepr i, by simpa [fmtName, hi] using hx2⟩

/-- C10 witness: FOO.JPG is scanned despite its upper case and keeps the
upper-case suffix JPG in its assigned name. -/
theorem extension_preserved_verbatim_inst :
    find_pictures "/floppy" ["FOO.JPG"] = ["/floppy/FOO.JPG"] ∧
    create_target_filenames envA [] ["/floppy/FOO.JPG"] =
      .ok [("/floppy/FOO.JPG", "200101_120000.JPG")] ∧
    matchesJpg "FOO.JPG" = true :=
  ⟨rfl, rfl,
   (extension_preserved_verbatim envA [] ["/floppy/FOO.JPG"] (by decide)
     [("/floppy/FOO.JPG", "200101_120000.JPG")] rfl).1⟩

end FloppyCopy
